import Mathlib

/-!
Verification of the mini-blockchain core specification.

The repository ships the web UI client (TypeScript, `src/web-ui` and the
unnamed API-client files) together with the architecture documentation of a
Rust consensus core (chain state, UTXO set, mempool, miner).  The consensus
core itself is not part of the sources at hand, so the chain/mempool/miner
operations below are modelled from the specification's words and from the
constants recorded in `ARCHITECTURE.md`; the client-side operations
(`healthCheck`, `getReconnectDelay`, the WebSocket reconnect state machine,
the response records) are translated directly from the TypeScript sources.
-/

namespace MiniBlockchain

/-! ## Data model (spec section 3, `ARCHITECTURE.md` core layer) -/

/-- A transaction output: an amount locked to an address.  The locking
condition is modelled by the receiving address, which is all the balance and
maturity rules consult. -/
structure TxOutput where
  amount : Nat
  address : String
  deriving DecidableEq, Repr

/-- Reference to the output of a prior transaction. -/
structure OutPoint where
  txId : String
  index : Nat
  deriving DecidableEq, Repr

/-- A transaction input: the outpoint it spends.  The unlocking proof is a
capability consumed by the core and is opaque here. -/
structure TxInput where
  prevout : OutPoint
  deriving DecidableEq, Repr

/-- A transaction: id, inputs, outputs, coinbase flag, locktime and fee,
following the `Transaction` struct documented in `ARCHITECTURE.md`. -/
structure Transaction where
  id : String
  inputs : List TxInput
  outputs : List TxOutput
  isCoinbase : Bool
  locktime : Nat
  fee : Nat
  deriving DecidableEq, Repr

/-- The data the UTXO set stores per unspent outpoint: the output itself,
whether it was created by a coinbase transaction, and the height of the block
that created it (the coinbase-maturity ledger of the spec). -/
structure UtxoData where
  out : TxOutput
  isCoinbase : Bool
  height : Nat
  deriving DecidableEq, Repr

/-- The UTXO set: an outpoint-to-output association, each key unique. -/
abbrev UtxoSet := List (OutPoint × UtxoData)

/-- Block header as documented in `ARCHITECTURE.md` (`BlockHeader`). -/
structure BlockHeader where
  previousHash : String
  merkleRoot : String
  timestamp : Nat
  difficulty : Nat
  nonce : Nat
  deriving DecidableEq, Repr

/-- A block: index, header, ordered transactions and hash. -/
structure Block where
  index : Nat
  header : BlockHeader
  transactions : List Transaction
  hash : String
  deriving DecidableEq, Repr

/-! ## Policy constants (`ARCHITECTURE.md` production constants) -/

/-- `COINBASE_MATURITY`: 100 blocks. -/
def COINBASE_MATURITY : Nat := 100

/-- `BLOCK_REWARD`: 50 coins. -/
def BLOCK_REWARD : Nat := 50

/-- Difficulty retarget interval: every 10 blocks. -/
def RETARGET_INTERVAL : Nat := 10

/-- Target block time: 100 seconds. -/
def TARGET_BLOCK_TIME : Nat := 100

/-- Modelled from the spec: the per-period difficulty adjustment is clamped
to a bounded factor; the exact bound is a policy constant, taken here as the
Bitcoin-style factor 4. -/
def MAX_ADJUSTMENT_FACTOR : Nat := 4

/-- RBF minimum fee-rate bump: 10 percent (`ARCHITECTURE.md`). -/
def MIN_BUMP_PERCENT : Nat := 10

/-- Initial difficulty of the genesis state (the spec's scenarios mine at
difficulty 8). -/
def INITIAL_DIFFICULTY : Nat := 8

/-! ## UTXO maintenance and chain state

Modelled from the spec: the consensus core (`src/core/blockchain.rs` in the
documented layout) is not among the sources, so block application, replay and
`validate_chain` are modelled from spec sections 3, 4.3 and 6. -/

/-- Modelled from the spec: applying one transaction to the UTXO set removes
the outputs its inputs spend and inserts its own outputs, keyed by
(transaction id, output index), remembering coinbase status and creation
height for the maturity rule. -/
def applyTxToUtxo (height : Nat) (u : UtxoSet) (tx : Transaction) : UtxoSet :=
  let afterSpend := u.filter fun p => !(tx.inputs.any fun i => i.prevout == p.1)
  afterSpend ++ tx.outputs.enum.map fun p =>
    (⟨tx.id, p.1⟩, ⟨p.2, tx.isCoinbase, height⟩)

/-- Modelled from the spec: a block's transactions are applied in order
against a UTXO view updated transaction-by-transaction. -/
def applyBlockUtxo (u : UtxoSet) (b : Block) : UtxoSet :=
  b.transactions.foldl (applyTxToUtxo b.index) u

/-- Modelled from the spec: recompute the UTXO set by replaying every block
from genesis onward, starting from the empty set. -/
def replayUtxo (blocks : List Block) : UtxoSet :=
  blocks.foldl applyBlockUtxo []

/-- Modelled from the spec: cumulative work is a monotonic function of each
block's difficulty; a block at difficulty `d` contributes `2 ^ d` work. -/
def blockWork (difficulty : Nat) : Nat := 2 ^ difficulty

/-- Modelled from the spec: cumulative proof-of-work of a chain. -/
def cumulativeWork (blocks : List Block) : Nat :=
  blocks.foldl (fun acc b => acc + blockWork b.header.difficulty) 0

/-- Chain state: ordered accepted blocks, live UTXO set, cumulative work and
current difficulty (`Blockchain` struct in `ARCHITECTURE.md`; the
coinbase-maturity ledger lives inside the UTXO entries). -/
structure ChainState where
  blocks : List Block
  utxoSet : UtxoSet
  chainWork : Nat
  difficulty : Nat
  deriving DecidableEq, Repr

/-- Modelled from the spec: the observed timespan of the last retarget
interval, read off the tip timestamp and the timestamp
`RETARGET_INTERVAL` blocks back; defaults to the expected timespan when the
chain is too short. -/
def observedTimespanOf (blocks : List Block) : Nat :=
  let rev := blocks.reverse
  match rev.head?, rev.get? RETARGET_INTERVAL with
  | some tip, some base => tip.header.timestamp - base.header.timestamp
  | _, _ => RETARGET_INTERVAL * TARGET_BLOCK_TIME

/-- Modelled from the spec: difficulty retargets from the observed timespan
versus the target block time, with the observed timespan clamped so that the
per-period adjustment factor is bounded by `MAX_ADJUSTMENT_FACTOR`. -/
def retargetDifficulty (oldDiff observed : Nat) : Nat :=
  let expected := RETARGET_INTERVAL * TARGET_BLOCK_TIME
  let clamped := min (max observed (expected / MAX_ADJUSTMENT_FACTOR))
    (expected * MAX_ADJUSTMENT_FACTOR)
  oldDiff * expected / clamped

/-- Modelled from the spec: accepting a tip-extending block appends it,
applies its transactions to the live UTXO set, accumulates its work, and
retargets the difficulty every `RETARGET_INTERVAL` blocks. -/
def addBlock (st : ChainState) (b : Block) : ChainState :=
  let newBlocks := st.blocks ++ [b]
  let newDiff :=
    if b.index % RETARGET_INTERVAL == 0 && b.index != 0 then
      retargetDifficulty st.difficulty (observedTimespanOf newBlocks)
    else st.difficulty
  { blocks := newBlocks
    utxoSet := applyBlockUtxo st.utxoSet b
    chainWork := st.chainWork + blockWork b.header.difficulty
    difficulty := newDiff }

/-- The genesis block: index 0, no transactions. -/
def genesisBlock : Block :=
  { index := 0
    header := { previousHash := "0", merkleRoot := "", timestamp := 0,
                difficulty := INITIAL_DIFFICULTY, nonce := 0 }
    transactions := []
    hash := "genesis" }

/-- The genesis chain state. -/
def genesisState : ChainState :=
  { blocks := [genesisBlock]
    utxoSet := applyBlockUtxo [] genesisBlock
    chainWork := blockWork INITIAL_DIFFICULTY
    difficulty := INITIAL_DIFFICULTY }

/-- A chain state built by accepting a list of blocks, in order, on top of
genesis — the shape of every accepted chain state. -/
def mkChain (bs : List Block) : ChainState :=
  bs.foldl addBlock genesisState

/-- Chain height: the index of the tip (genesis is height 0). -/
def chainHeight (st : ChainState) : Nat :=
  st.blocks.length - 1

/-- `ValidationResponse` record, translated from the API client
(`src/unnamed/part_000`, lines 59-63). -/
structure ValidationResponse where
  valid : Bool
  blocks_checked : Nat
  message : String
  deriving DecidableEq, Repr

/-- Modelled from the spec: `validate_chain` performs a full UTXO
re-derivation from genesis and compares it with the live maintained set,
reporting validity, the number of non-genesis blocks checked, and a
message. -/
def validateChain (st : ChainState) : ValidationResponse :=
  let recomputed := replayUtxo st.blocks
  let ok := decide (recomputed = st.utxoSet)
  { valid := ok
    blocks_checked := st.blocks.length - 1
    message := if ok then "chain valid" else "utxo set mismatch" }

/-- Modelled from the spec: the coinbase transaction of the block at the
given height, zero inputs, one output of reward plus collected fees paid to
the miner address. -/
def coinbaseTx (height : Nat) (minerAddr : String) (fees : Nat) : Transaction :=
  { id := "coinbase-" ++ toString height
    inputs := []
    outputs := [⟨BLOCK_REWARD + fees, minerAddr⟩]
    isCoinbase := true
    locktime := 0
    fee := 0 }

/-- Modelled from the spec: `mine_once` at the chain level — assemble a block
extending the tip with a single coinbase transaction and accept it.  Proof of
work itself is modelled separately by the nonce search below. -/
def mineOnce (st : ChainState) (minerAddr : String) : ChainState :=
  let height := st.blocks.length
  let cb := coinbaseTx height minerAddr 0
  let b : Block :=
    { index := height
      header := { previousHash := (st.blocks.getLast?.map (·.hash)).getD "0"
                  merkleRoot := cb.id
                  timestamp := height * TARGET_BLOCK_TIME
                  difficulty := st.difficulty
                  nonce := 0 }
      transactions := [cb]
      hash := "blk-" ++ toString height }
  addBlock st b

/-- Total coins in the live UTXO set. -/
def totalCoins (st : ChainState) : Nat :=
  st.utxoSet.foldl (fun acc p => acc + p.2.out.amount) 0

/-! ## Balances and coinbase maturity -/

/-- Modelled from the spec: a UTXO entry is spendable at a given chain height
unless it is a coinbase output younger than `COINBASE_MATURITY` blocks. -/
def isSpendableAt (d : UtxoData) (height : Nat) : Bool :=
  !d.isCoinbase || decide (d.height + COINBASE_MATURITY ≤ height)

/-- Whether a UTXO entry pays the given address. -/
def ownedBy (addr : String) (d : UtxoData) : Bool :=
  d.out.address == addr

/-- Modelled from the spec: spendable balance of an address — the sum of its
mature unspent outputs at the given chain height. -/
def spendableBalanceOf (addr : String) (height : Nat) (u : UtxoSet) : Nat :=
  (u.filter fun p => ownedBy addr p.2 && isSpendableAt p.2 height).foldl
    (fun acc p => acc + p.2.out.amount) 0

/-- Modelled from the spec: immature balance of an address — the sum of its
not-yet-mature coinbase outputs at the given chain height. -/
def immatureBalanceOf (addr : String) (height : Nat) (u : UtxoSet) : Nat :=
  (u.filter fun p => ownedBy addr p.2 && !isSpendableAt p.2 height).foldl
    (fun acc p => acc + p.2.out.amount) 0

/-- Sum of all unspent outputs of an address, mature or not. -/
def totalBalanceOf (addr : String) (u : UtxoSet) : Nat :=
  (u.filter fun p => ownedBy addr p.2).foldl
    (fun acc p => acc + p.2.out.amount) 0

/-- Number of unspent outputs of an address. -/
def utxoCountOf (addr : String) (u : UtxoSet) : Nat :=
  (u.filter fun p => ownedBy addr p.2).length

/-- `BalanceResponse` record, translated from the API client
(`src/unnamed/part_000`, lines 31-37). -/
structure BalanceResponse where
  address : String
  balance : Nat
  spendable_balance : Nat
  immature_balance : Nat
  utxo_count : Nat
  deriving DecidableEq, Repr

/-- Modelled from the spec: `get_balance(address)` returns the address's
spendable balance, immature balance and unspent-output count against the
current chain height, packaged in the `BalanceResponse` record of the API
client (which also echoes the address and the total balance). -/
def getBalance (addr : String) (st : ChainState) : BalanceResponse :=
  let h := chainHeight st
  { address := addr
    balance := totalBalanceOf addr st.utxoSet
    spendable_balance := spendableBalanceOf addr h st.utxoSet
    immature_balance := immatureBalanceOf addr h st.utxoSet
    utxo_count := utxoCountOf addr st.utxoSet }

/-! ## Fork resolution (spec section 4.3) -/

/-- Modelled from the spec: a candidate branch is adopted exactly when its
cumulative work strictly exceeds the active chain's. -/
def adoptsBranch (active candidate : List Block) : Bool :=
  decide (cumulativeWork active < cumulativeWork candidate)

/-- Modelled from the spec: fork resolution — reorg to the candidate branch
when it carries strictly more cumulative work, otherwise keep the active
(first-seen) branch, in particular on ties. -/
def resolveFork (active candidate : List Block) : List Block :=
  if adoptsBranch active candidate then candidate else active

/-! ## Mempool (spec section 4.4)

Modelled from the spec: the mempool sources (`src/mining/mempool.rs` in the
documented layout) are not among the sources at hand.  The conflict,
replacement and selection rules below follow spec section 4.4 and the RBF
and fee-ordering notes of `ARCHITECTURE.md`. -/

/-- A mempool entry: the transaction plus its fee-rate. -/
structure MempoolEntry where
  tx : Transaction
  feeRate : Nat
  deriving DecidableEq, Repr

/-- The pending-transaction pool, in arrival order. -/
abbrev Mempool := List MempoolEntry

/-- Modelled from the spec: a replacement fee-rate is a sufficient bump when
it exceeds the old fee-rate by at least `MIN_BUMP_PERCENT` percent. -/
def isSufficientBump (oldRate newRate : Nat) : Bool :=
  decide (oldRate * (100 + MIN_BUMP_PERCENT) ≤ newRate * 100)

/-- Whether two transactions spend a common outpoint. -/
def conflictsWith (a b : Transaction) : Bool :=
  a.inputs.any fun i => b.inputs.any fun j => j.prevout == i.prevout

/-- The first in-pool entry spending an outpoint the new transaction also
spends, if any. -/
def findConflict (pool : Mempool) (tx : Transaction) : Option MempoolEntry :=
  pool.find? fun e => conflictsWith tx e.tx

/-- Whether `child` directly spends an output of `parent`. -/
def dependsOn (child parent : Transaction) : Bool :=
  child.inputs.any fun i => i.prevout.txId == parent.id

/-- Whether a transaction spends an output of any transaction whose id is in
the accumulator. -/
def dependsOnIds (ids : List String) (tx : Transaction) : Bool :=
  tx.inputs.any fun i => ids.contains i.prevout.txId

/-- Modelled from the spec: worklist computation of the full descendant set —
repeatedly move every remaining entry depending on the accumulated ids into
the accumulator, until nothing more depends on it. -/
def descClosureAux : Nat → List MempoolEntry → List String → List String
  | 0, _, acc => acc
  | fuel + 1, remaining, acc =>
    let dep := remaining.filter fun e => dependsOnIds acc e.tx
    if dep.isEmpty then acc
    else
      descClosureAux fuel (remaining.filter fun e => !dependsOnIds acc e.tx)
        (acc ++ dep.map fun e => e.tx.id)

/-- Modelled from the spec: the ids of a transaction and all of its in-pool
descendants, computed before any mutation. -/
def descendantClosure (pool : Mempool) (rootId : String) : List String :=
  descClosureAux (pool.length + 1) pool [rootId]

/-- Typed mempool rejection reasons (spec sections 4.1 and 7). -/
inductive RejectReason where
  | DoubleSpend
  | BadSignature
  | Immature
  | Oversize
  | LocktimeNotReached
  | ValueOverflow
  deriving DecidableEq, Repr

/-- Result of a mempool admission. -/
inductive AdmitResult where
  | accepted (pool : Mempool)
  | rejected (reason : RejectReason)
  deriving DecidableEq, Repr

/-- Modelled from the spec: admission of an already-validated transaction,
focusing on the outpoint-conflict path — on a conflict the newcomer is
rejected with `DoubleSpend` unless its fee-rate is a sufficient bump, in
which case the superseded entry and all of its descendants are evicted in a
single batch and the newcomer is appended. -/
def admitTx (pool : Mempool) (e : MempoolEntry) : AdmitResult :=
  match findConflict pool e.tx with
  | none => .accepted (pool ++ [e])
  | some old =>
    if isSufficientBump old.feeRate e.feeRate then
      let evict := descendantClosure pool old.tx.id
      .accepted ((pool.filter fun x => !evict.contains x.tx.id) ++ [e])
    else .rejected .DoubleSpend

/-- The in-pool descendants of a root transaction: every entry reachable from
the root by following spends of in-pool outputs. -/
inductive DescendantOf (pool : Mempool) (root : Transaction) : Transaction → Prop
  | base {e : MempoolEntry} : e ∈ pool → dependsOn e.tx root = true →
      DescendantOf pool root e.tx
  | step {t : Transaction} {e : MempoolEntry} : DescendantOf pool root t →
      e ∈ pool → dependsOn e.tx t = true → DescendantOf pool root e.tx

/-! ## Selection for mining (spec section 4.4) -/

/-- Modelled from the spec: a transaction's locktime is satisfied against the
next candidate height when it does not exceed it. -/
def locktimeOk (tx : Transaction) (nextHeight : Nat) : Bool :=
  decide (tx.locktime ≤ nextHeight)

/-- An entry is ready for selection when no still-unselected pool entry other
than itself is one of its in-pool parents. -/
def isReady (remaining : List MempoolEntry) (e : MempoolEntry) : Bool :=
  remaining.all fun p => p.tx.id == e.tx.id || !dependsOn e.tx p.tx

/-- The best ready entry: highest fee-rate among the ready ones, earliest
arrival on ties. -/
def pickBest (remaining : List MempoolEntry) : Option MempoolEntry :=
  (remaining.filter (isReady remaining)).foldl
    (fun best e =>
      match best with
      | none => some e
      | some b => if b.feeRate < e.feeRate then some e else some b)
    none

/-- Modelled from the spec: greedy selection — repeatedly emit the
highest-fee-rate entry whose in-pool parents have all been emitted already. -/
def selectLoop : Nat → List MempoolEntry → List MempoolEntry
  | 0, _ => []
  | fuel + 1, remaining =>
    match pickBest remaining with
    | none => []
    | some e => e :: selectLoop fuel (remaining.filter fun x => x.tx.id != e.tx.id)

/-- Modelled from the spec: selection for mining — drop entries whose
locktime is not yet satisfied against the next candidate height, then emit
the rest greedily by descending fee-rate, never emitting a transaction before
an unselected in-pool parent. -/
def selectForMining (pool : Mempool) (nextHeight : Nat) : List MempoolEntry :=
  let eligible := pool.filter fun e => locktimeOk e.tx nextHeight
  selectLoop eligible.length eligible

/-- No entry of the sequence is followed by one of its parents: the
dependency-order requirement on a selection result. -/
def noParentLater : List MempoolEntry → Bool
  | [] => true
  | e :: rest => (rest.all fun p => !dependsOn e.tx p.tx) && noParentLater rest

/-- Fee-rates are non-increasing along the sequence. -/
def feeRatesNonIncr : List MempoolEntry → Bool
  | [] => true
  | [_] => true
  | a :: b :: rest => decide (b.feeRate ≤ a.feeRate) && feeRatesNonIncr (b :: rest)

/-- The pool has no in-pool parent-child pair at all. -/
def noInPoolDeps (pool : Mempool) : Bool :=
  pool.all fun e => pool.all fun p => !dependsOn e.tx p.tx

/-! ## Miner nonce search (spec section 4.5)

Modelled from the spec: the miner increments the nonce deterministically
until the header hash satisfies the difficulty target.  The hash is a
consumed capability, modelled as an arbitrary function from nonce to digest
for a fixed header prefix; the search order is explicit so that the
parallel-search requirement can be stated. -/

/-- Whether a digest satisfies the difficulty target. -/
def meetsTarget (digest target : Nat) : Bool :=
  decide (digest ≤ target)

/-- Sequential nonce search: the first nonce of the search order whose digest
meets the target. -/
def findNonceSeq (digestOf : Nat → Nat) (target : Nat) : List Nat → Option Nat
  | [] => none
  | n :: rest =>
    if meetsTarget (digestOf n) target then some n
    else findNonceSeq digestOf target rest

/-- Parallel nonce search: the search order is split into chunks, each chunk
is scanned independently, and the hit of the earliest chunk wins. -/
def findNonceChunks (digestOf : Nat → Nat) (target : Nat)
    (chunks : List (List Nat)) : Option Nat :=
  chunks.foldr (fun c acc => (findNonceSeq digestOf target c).orElse fun _ => acc)
    none

/-- Assemble the mined block from tip, transactions and the found nonce. -/
def assembleBlock (tip : Block) (txs : List Transaction) (nonce : Nat) : Block :=
  { index := tip.index + 1
    header := { previousHash := tip.hash
                merkleRoot := String.intercalate "|" (txs.map (·.id))
                timestamp := (tip.index + 1) * TARGET_BLOCK_TIME
                difficulty := tip.header.difficulty
                nonce := nonce }
    transactions := txs
    hash := "mined-" ++ toString nonce }

/-- Modelled from the spec: `mine` with a sequential nonce search over the
given search order. -/
def mineBlockSeq (digestOf : Nat → Nat) (target : Nat) (tip : Block)
    (txs : List Transaction) (order : List Nat) : Option Block :=
  (findNonceSeq digestOf target order).map (assembleBlock tip txs)

/-- Modelled from the spec: `mine` with a concurrent chunked nonce search
over a partition of the search order. -/
def mineBlockPar (digestOf : Nat → Nat) (target : Nat) (tip : Block)
    (txs : List Transaction) (chunks : List (List Nat)) : Option Block :=
  (findNonceChunks digestOf target chunks).map (assembleBlock tip txs)

/-! ## API client: health check (`src/unnamed/part_000`, lines 128-135) -/

/-- The outcome of the underlying HTTP fetch: either the request completes
with an `ok` status flag, or it fails (network error, thrown rejection). -/
inductive FetchOutcome where
  | success (ok : Bool)
  | failure
  deriving DecidableEq, Repr

/-- The body of `healthCheck`'s try block: `res.ok` when the fetch resolves,
a propagated exception when it rejects. -/
def healthCheckTry : FetchOutcome → Except Unit Bool
  | .success ok => .ok ok
  | .failure => .error ()

/-- `healthCheck`, translated from the API client: the try block's result,
with any thrown error caught and turned into `false`. -/
def healthCheck (o : FetchOutcome) : Except Unit Bool :=
  match healthCheckTry o with
  | .ok b => .ok b
  | .error _ => .ok false

/-! ## WebSocket client (`src/web-ui/src/lib/websocket.ts`) -/

/-- `MAX_RECONNECT_DELAY = 30000` milliseconds. -/
def MAX_RECONNECT_DELAY : Nat := 30000

/-- `BASE_RECONNECT_DELAY = 1000` milliseconds. -/
def BASE_RECONNECT_DELAY : Nat := 1000

/-- `getReconnectDelay`, translated from `websocket.ts` lines 76-82:
exponential backoff capped at `MAX_RECONNECT_DELAY`. -/
def getReconnectDelay (reconnectAttempts : Nat) : Nat :=
  min (BASE_RECONNECT_DELAY * 2 ^ reconnectAttempts) MAX_RECONNECT_DELAY

/-- The reconnect-relevant client state: the attempt counter and the delay of
the scheduled reconnect, if one is pending. -/
structure WsState where
  reconnectAttempts : Nat
  scheduledDelay : Option Nat
  deriving DecidableEq, Repr

/-- The connection events the handlers in `connectWebSocket` react to. -/
inductive WsEventKind where
  | openSuccess
  | closeClean
  | closeUnclean
  | connectFailure
  deriving DecidableEq, Repr

/-- The reconnect state machine of `connectWebSocket` (lines 135-169): a
successful open resets the attempt counter; a clean close schedules nothing;
a non-clean close or a failed connection attempt schedules a reconnect at the
current backoff delay and then increments the attempt counter. -/
def wsStep (s : WsState) : WsEventKind → WsState
  | .openSuccess => { reconnectAttempts := 0, scheduledDelay := none }
  | .closeClean => { reconnectAttempts := s.reconnectAttempts, scheduledDelay := none }
  | .closeUnclean =>
      { reconnectAttempts := s.reconnectAttempts + 1
        scheduledDelay := some (getReconnectDelay s.reconnectAttempts) }
  | .connectFailure =>
      { reconnectAttempts := s.reconnectAttempts + 1
        scheduledDelay := some (getReconnectDelay s.reconnectAttempts) }

/-! ## Concrete scenario data -/

/-- Mine `n` consecutive coinbase-only blocks from genesis. -/
def mineMany (n : Nat) (addr : String) : ChainState :=
  (List.range n).foldl (fun s _ => mineOnce s addr) genesisState

/-- A synthetic block arriving at exactly twice the target spacing. -/
def slowBlock (i : Nat) : Block :=
  { index := i
    header := { previousHash := "p", merkleRoot := "",
                timestamp := i * (2 * TARGET_BLOCK_TIME),
                difficulty := INITIAL_DIFFICULTY, nonce := 0 }
    transactions := []
    hash := "slow-" ++ toString i }

/-- A synthetic retarget interval: ten blocks arriving at exactly twice the
target spacing on top of genesis. -/
def slowChain : ChainState :=
  ((List.range RETARGET_INTERVAL).map (fun i => slowBlock (i + 1))).foldl
    addBlock genesisState

/-- A one-transaction fork-demo block of the given difficulty. -/
def forkBlock (d : Nat) (tag : String) : Block :=
  { index := 1
    header := { previousHash := "genesis", merkleRoot := "", timestamp := 0,
                difficulty := d, nonce := 0 }
    transactions := []
    hash := tag }

/-- Demo transaction A: spends the outpoint ("g", 0). -/
def demoTxA : Transaction :=
  { id := "A", inputs := [⟨⟨"g", 0⟩⟩], outputs := [⟨10, "x"⟩],
    isCoinbase := false, locktime := 0, fee := 1 }

/-- Demo transaction C: spends A's output (a direct descendant of A). -/
def demoTxC : Transaction :=
  { id := "C", inputs := [⟨⟨"A", 0⟩⟩], outputs := [⟨5, "y"⟩],
    isCoinbase := false, locktime := 0, fee := 1 }

/-- Demo transaction D: spends C's output (a transitive descendant of A). -/
def demoTxD : Transaction :=
  { id := "D", inputs := [⟨⟨"C", 0⟩⟩], outputs := [⟨2, "z"⟩],
    isCoinbase := false, locktime := 0, fee := 1 }

/-- Demo transaction B: also spends the outpoint ("g", 0), conflicting
with A. -/
def demoTxB : Transaction :=
  { id := "B", inputs := [⟨⟨"g", 0⟩⟩], outputs := [⟨9, "w"⟩],
    isCoinbase := false, locktime := 0, fee := 2 }

/-- Demo transaction E: independent of the others. -/
def demoTxE : Transaction :=
  { id := "E", inputs := [⟨⟨"h", 0⟩⟩], outputs := [⟨3, "v"⟩],
    isCoinbase := false, locktime := 0, fee := 1 }

/-- A mempool holding A and its descendant chain C, D. -/
def demoPoolRbf : Mempool := [⟨demoTxA, 100⟩, ⟨demoTxC, 50⟩, ⟨demoTxD, 70⟩]

/-- A mempool with a low-fee-rate parent and a high-fee-rate child. -/
def demoPoolParentChild : Mempool := [⟨demoTxA, 1⟩, ⟨demoTxC, 2⟩]

/-- A mempool of two independent transactions. -/
def demoPoolIndependent : Mempool := [⟨demoTxA, 1⟩, ⟨demoTxB, 5⟩]

/-- A coinbase UTXO entry created at height 5, paying 50 to "m". -/
def demoCoinbaseData : UtxoData := ⟨⟨50, "m"⟩, true, 5⟩

/-- The outpoint of the demo coinbase entry. -/
def demoOutPoint : OutPoint := ⟨"cb", 0⟩

/-! # Theorems -/

/-! ## Shared helper lemmas -/

/-- Splitting a list by a Bool predicate preserves its length. -/
theorem length_filter_split {α : Type} (l : List α) (p : α → Bool) :
    (l.filter p).length + (l.filter fun x => !p x).length = l.length := by
  induction l with
  | nil => simp
  | cons a l ih =>
    by_cases h : p a <;> simp [List.filter_cons, h] <;> omega

/-! ## C9: healthCheck never throws -/

/-- Claim C9: the healthCheck client operation never throws — for every
outcome of the underlying HTTP request it returns a boolean, true exactly
when the request completes with an ok status, and false both on a non-ok
status and on any network failure. -/
theorem healthCheck_never_throws :
    (∀ o : FetchOutcome, ∃ b : Bool, healthCheck o = .ok b) ∧
    (∀ o : FetchOutcome, healthCheck o = .ok true ↔ o = .success true) ∧
    healthCheck (.success false) = .ok false ∧
    healthCheck .failure = .ok false := by
  refine ⟨?_, ?_, rfl, rfl⟩
  · intro o
    cases o with
    | success ok => exact ⟨ok, rfl⟩
    | failure => exact ⟨false, rfl⟩
  · intro o
    cases o with
    | success ok => cases ok <;> simp [healthCheck, healthCheckTry]
    | failure => simp [healthCheck, healthCheckTry]

/-- Witness for C9: the ok-status outcome maps to true. -/
theorem healthCheck_never_throws_witness :
    healthCheck (.success true) = .ok true :=
  (healthCheck_never_throws.2.1 (.success true)).mpr rfl

/-! ## C10: WebSocket reconnect backoff -/

/-- Claim C10: the reconnect delay equals min(1000 * 2 ^ attempts, 30000)
milliseconds, hence is non-decreasing in the attempt count and never exceeds
30 seconds; a reconnect is scheduled only by a non-clean close or a failed
connection attempt, at exactly that delay, and a successful open resets the
attempt count to zero. -/
theorem wsReconnect_backoff :
    (∀ m n : Nat, m ≤ n → getReconnectDelay m ≤ getReconnectDelay n) ∧
    (∀ n : Nat, getReconnectDelay n ≤ 30000) ∧
    (∀ (s : WsState) (e : WsEventKind), (wsStep s e).scheduledDelay.isSome = true →
        e = .closeUnclean ∨ e = .connectFailure) ∧
    (∀ (s : WsState) (e : WsEventKind), (wsStep s e).scheduledDelay.isSome = true →
        (wsStep s e).scheduledDelay = some (min (1000 * 2 ^ s.reconnectAttempts) 30000)) ∧
    (∀ s : WsState, (wsStep s .openSuccess).reconnectAttempts = 0) := by
  refine ⟨?_, ?_, ?_, ?_, fun s => rfl⟩
  · intro m n h
    exact min_le_min
      (Nat.mul_le_mul_left _ (Nat.pow_le_pow_right (by norm_num) h)) le_rfl
  · intro n
    exact min_le_right _ _
  · intro s e h
    cases e <;> simp_all [wsStep]
  · intro s e h
    cases e <;> simp_all [wsStep, getReconnectDelay, BASE_RECONNECT_DELAY,
      MAX_RECONNECT_DELAY]

/-- Witness for C10: monotonicity and scheduling at concrete inputs. -/
theorem wsReconnect_backoff_witness :
    getReconnectDelay 2 ≤ getReconnectDelay 5 ∧
    ((wsStep ⟨3, none⟩ .closeUnclean).scheduledDelay =
      some (min (1000 * 2 ^ 3) 30000)) :=
  ⟨wsReconnect_backoff.1 2 5 (by decide),
   wsReconnect_backoff.2.2.2.1 ⟨3, none⟩ .closeUnclean (by decide)⟩

/-! ## C7: difficulty retargeting -/

/-- Claim C7: difficulty retargets at every fixed block interval from the
observed timespan versus the target block time, clamped to a bounded factor
per period; when blocks arrive at exactly twice the target spacing the next
retarget halves the difficulty, within the clamp — in particular the
synthetic ten-block interval at 2x spacing takes the difficulty from 8
to 4. -/
theorem difficulty_retarget_clamped :
    (∀ d : Nat, retargetDifficulty d (2 * (RETARGET_INTERVAL * TARGET_BLOCK_TIME)) = d / 2) ∧
    (∀ d t : Nat, d / MAX_ADJUSTMENT_FACTOR ≤ retargetDifficulty d t ∧
        retargetDifficulty d t ≤ MAX_ADJUSTMENT_FACTOR * d) ∧
    (∀ (st : ChainState) (b : Block),
        (b.index % RETARGET_INTERVAL == 0 && b.index != 0) = false →
        (addBlock st b).difficulty = st.difficulty) ∧
    slowChain.difficulty = INITIAL_DIFFICULTY / 2 := by
  refine ⟨?_, ?_, ?_, by decide⟩
  · intro d
    simp only [retargetDifficulty, RETARGET_INTERVAL, TARGET_BLOCK_TIME,
      MAX_ADJUSTMENT_FACTOR]
    have h : min (max (2 * (10 * 100)) (10 * 100 / 4)) (10 * 100 * 4) = 2000 := by
      decide
    rw [h]
    omega
  · intro d t
    simp only [retargetDifficulty, RETARGET_INTERVAL, TARGET_BLOCK_TIME,
      MAX_ADJUSTMENT_FACTOR]
    constructor
    · have h1 : min (max t (1000 / 4)) (1000 * 4) ≤ 4000 := by omega
      have h2 : 0 < min (max t (1000 / 4)) (1000 * 4) := by omega
      calc d / 4 = d * (10 * 100) / 4000 := by omega
        _ ≤ d * (10 * 100) / min (max t (1000 / 4)) (1000 * 4) :=
            Nat.div_le_div_left h1 h2
        _ = d * (10 * 100) / min (max t (10 * 100 / 4)) (10 * 100 * 4) := by
            norm_num
    · have h1 : 250 ≤ min (max t (1000 / 4)) (1000 * 4) := by omega
      calc d * (10 * 100) / min (max t (10 * 100 / 4)) (10 * 100 * 4)
            = d * (10 * 100) / min (max t (1000 / 4)) (1000 * 4) := by norm_num
        _ ≤ d * (10 * 100) / 250 := Nat.div_le_div_left h1 (by omega)
        _ ≤ 4 * d := by omega
  · intro st b h
    simp [addBlock, h]

/-- Witness for C7: a block off the retarget boundary leaves the difficulty
unchanged, and the halving formula at the concrete timespan 2000. -/
theorem difficulty_retarget_clamped_witness :
    (addBlock genesisState (slowBlock 3)).difficulty = genesisState.difficulty ∧
    retargetDifficulty 8 (2 * (RETARGET_INTERVAL * TARGET_BLOCK_TIME)) = 4 :=
  ⟨difficulty_retarget_clamped.2.2.1 genesisState (slowBlock 3) (by decide),
   difficulty_retarget_clamped.1 8⟩

/-! ## C2: fork choice by cumulative work -/

/-- Claim C2: the chain state manager reorgs to a candidate branch exactly
when the candidate's cumulative proof-of-work strictly exceeds the active
tip's, ties broken by keeping the first-seen active branch; preference is by
cumulative work and never by block count alone — a shorter branch of greater
work wins over a longer branch of lesser work. -/
theorem fork_choice_cumulative_work :
    (∀ active candidate : List Block,
        cumulativeWork active < cumulativeWork candidate →
        resolveFork active candidate = candidate) ∧
    (∀ active candidate : List Block,
        cumulativeWork candidate ≤ cumulativeWork active →
        resolveFork active candidate = active) ∧
    (∀ d1 d2 : Nat, d1 ≤ d2 → blockWork d1 ≤ blockWork d2) ∧
    (adoptsBranch [forkBlock 1 "a", forkBlock 1 "b"] [forkBlock 3 "c"] = true ∧
     adoptsBranch [forkBlock 3 "c"] [forkBlock 1 "a", forkBlock 1 "b"] = false ∧
     ([forkBlock 3 "c"] : List Block).length <
       ([forkBlock 1 "a", forkBlock 1 "b"] : List Block).length) := by
  refine ⟨?_, ?_, ?_, by decide, by decide, by decide⟩
  · intro a c h
    simp [resolveFork, adoptsBranch, h]
  · intro a c h
    simp [resolveFork, adoptsBranch, Nat.not_lt.mpr h]
  · intro d1 d2 h
    exact Nat.pow_le_pow_right (by norm_num) h

/-- Witness for C2: the two-block low-work active branch is abandoned for the
one-block high-work candidate, and kept against a lower-work candidate. -/
theorem fork_choice_cumulative_work_witness :
    resolveFork [forkBlock 1 "a", forkBlock 1 "b"] [forkBlock 3 "c"]
      = [forkBlock 3 "c"] ∧
    resolveFork [forkBlock 3 "c"] [forkBlock 1 "a", forkBlock 1 "b"]
      = [forkBlock 3 "c"] :=
  ⟨fork_choice_cumulative_work.1 _ _ (by decide),
   fork_choice_cumulative_work.2.1 _ _ (by decide)⟩

/-! ## Balance lemmas -/

/-- The amount-summing fold, with an arbitrary accumulator pulled out. -/
theorem sumAmounts_foldl (l : UtxoSet) (n : Nat) :
    l.foldl (fun acc p => acc + p.2.out.amount) n
      = n + (l.map fun p => p.2.out.amount).sum := by
  induction l generalizing n with
  | nil => simp
  | cons a l ih => simp [List.foldl_cons, ih]; omega

/-- Spendable balance as a filtered sum. -/
theorem spendableBalanceOf_eq (addr : String) (h : Nat) (u : UtxoSet) :
    spendableBalanceOf addr h u
      = ((u.filter fun p => ownedBy addr p.2 && isSpendableAt p.2 h).map
          fun p => p.2.out.amount).sum := by
  simp [spendableBalanceOf, sumAmounts_foldl]

/-- Immature balance as a filtered sum. -/
theorem immatureBalanceOf_eq (addr : String) (h : Nat) (u : UtxoSet) :
    immatureBalanceOf addr h u
      = ((u.filter fun p => ownedBy addr p.2 && !isSpendableAt p.2 h).map
          fun p => p.2.out.amount).sum := by
  simp [immatureBalanceOf, sumAmounts_foldl]

/-- Total balance as a filtered sum. -/
theorem totalBalanceOf_eq (addr : String) (u : UtxoSet) :
    totalBalanceOf addr u
      = ((u.filter fun p => ownedBy addr p.2).map fun p => p.2.out.amount).sum := by
  simp [totalBalanceOf, sumAmounts_foldl]

/-- Splitting a filtered sum along a second Bool condition. -/
theorem filter_sum_split (u : UtxoSet) (p q : (OutPoint × UtxoData) → Bool) :
    ((u.filter fun x => p x && q x).map fun x => x.2.out.amount).sum +
      ((u.filter fun x => p x && !q x).map fun x => x.2.out.amount).sum
    = ((u.filter p).map fun x => x.2.out.amount).sum := by
  induction u with
  | nil => simp
  | cons a u ih =>
    by_cases hp : p a <;> by_cases hq : q a <;>
      simp [List.filter_cons, hp, hq] <;> omega

/-- The mature/immature split of an address's funds is exhaustive. -/
theorem balance_partition (addr : String) (h : Nat) (u : UtxoSet) :
    spendableBalanceOf addr h u + immatureBalanceOf addr h u
      = totalBalanceOf addr u := by
  rw [spendableBalanceOf_eq, immatureBalanceOf_eq, totalBalanceOf_eq]
  exact filter_sum_split u (fun p => ownedBy addr p.2) (fun p => isSpendableAt p.2 h)

/-! ## C3: get_balance returns the spendable/immature/utxo-count record -/

/-- Claim C3: for every address, get_balance returns the record whose
spendable field is the address's spendable balance, whose immature field is
its unmatured-coinbase balance and whose utxo_count field is its number of
unspent outputs, all against the current chain height; the spendable and
immature parts partition the address's total funds. -/
theorem getBalance_returns_triple :
    ∀ (addr : String) (st : ChainState),
      (getBalance addr st).spendable_balance
          = spendableBalanceOf addr (chainHeight st) st.utxoSet ∧
      (getBalance addr st).immature_balance
          = immatureBalanceOf addr (chainHeight st) st.utxoSet ∧
      (getBalance addr st).utxo_count = utxoCountOf addr st.utxoSet ∧
      (getBalance addr st).address = addr ∧
      (getBalance addr st).spendable_balance + (getBalance addr st).immature_balance
          = (getBalance addr st).balance := by
  intro addr st
  refine ⟨rfl, rfl, rfl, rfl, ?_⟩
  simpa [getBalance] using balance_partition addr (chainHeight st) st.utxoSet

/-! ## C4: coinbase maturity -/

/-- Claim C4: a coinbase output created at height H is excluded from its
address's spendable balance at every height strictly below
H + COINBASE_MATURITY and included once the chain height reaches
H + COINBASE_MATURITY (with COINBASE_MATURITY = 100 blocks). -/
theorem coinbase_maturity_spendable :
    ∀ (o : OutPoint) (d : UtxoData) (u : UtxoSet) (a : String) (h H : Nat),
      d.isCoinbase = true → d.height = H → d.out.address = a →
      (h < H + COINBASE_MATURITY →
          isSpendableAt d h = false ∧
          spendableBalanceOf a h ((o, d) :: u) = spendableBalanceOf a h u) ∧
      (H + COINBASE_MATURITY ≤ h →
          isSpendableAt d h = true ∧
          spendableBalanceOf a h ((o, d) :: u)
            = d.out.amount + spendableBalanceOf a h u) := by
  intro o d u a h H hcb hh ha
  have hspend : isSpendableAt d h = decide (H + COINBASE_MATURITY ≤ h) := by
    simp [isSpendableAt, hcb, hh]
  have howned : ownedBy a d = true := by simp [ownedBy, ha]
  constructor
  · intro hlt
    have hfalse : isSpendableAt d h = false := by
      rw [hspend]; simpa using Nat.not_le.mpr hlt
    refine ⟨hfalse, ?_⟩
    rw [spendableBalanceOf_eq, spendableBalanceOf_eq]
    simp [List.filter_cons, hfalse]
  · intro hge
    have htrue : isSpendableAt d h = true := by
      rw [hspend]; simpa using hge
    refine ⟨htrue, ?_⟩
    rw [spendableBalanceOf_eq, spendableBalanceOf_eq]
    simp [List.filter_cons, htrue, howned]

/-- Witness for C4: the demo coinbase entry created at height 5 is invisible
to the spendable balance at height 104 and worth 50 at height 105. -/
theorem coinbase_maturity_spendable_witness :
    spendableBalanceOf "m" 104 [(demoOutPoint, demoCoinbaseData)] = 0 ∧
    spendableBalanceOf "m" 105 [(demoOutPoint, demoCoinbaseData)] = 50 := by
  constructor
  · have := (coinbase_maturity_spendable demoOutPoint demoCoinbaseData [] "m" 104 5
      rfl rfl rfl).1 (by decide)
    rw [this.2]
    decide
  · have := (coinbase_maturity_spendable demoOutPoint demoCoinbaseData [] "m" 105 5
      rfl rfl rfl).2 (by decide)
    rw [this.2]
    decide

/-! ## C1: validate_chain re-derives the UTXO set -/

/-- Accepting one block keeps the replayed UTXO set in lockstep with the
live maintained one. -/
theorem replayUtxo_addBlock (st : ChainState) (b : Block)
    (h : replayUtxo st.blocks = st.utxoSet) :
    replayUtxo (addBlock st b).blocks = (addBlock st b).utxoSet := by
  simp [addBlock, replayUtxo, List.foldl_append] at h ⊢
  rw [h]

/-- Accepting any run of blocks preserves replay consistency. -/
theorem replayUtxo_foldl (bs : List Block) (st : ChainState)
    (h : replayUtxo st.blocks = st.utxoSet) :
    replayUtxo (bs.foldl addBlock st).blocks = (bs.foldl addBlock st).utxoSet := by
  induction bs generalizing st with
  | nil => exact h
  | cons b bs ih => exact ih (addBlock st b) (replayUtxo_addBlock st b h)

/-- Every chain state built by accepting blocks on genesis is replay
consistent. -/
theorem mkChain_replay (bs : List Block) :
    replayUtxo (mkChain bs).blocks = (mkChain bs).utxoSet :=
  replayUtxo_foldl bs genesisState rfl

/-- Claim C1: for every accepted chain state, replaying all blocks from
genesis recomputes a UTXO set equal to the live maintained one; the
validate_chain operation performs this re-derivation and returns the
(valid, blocks_checked, message) triple; after mining 10 blocks from genesis
it returns valid = true with blocks_checked = 10. -/
theorem validateChain_rederivation :
    (∀ bs : List Block, replayUtxo (mkChain bs).blocks = (mkChain bs).utxoSet) ∧
    (∀ st : ChainState, replayUtxo st.blocks = st.utxoSet →
        (validateChain st).valid = true ∧ (validateChain st).message = "chain valid") ∧
    (∀ st : ChainState, (validateChain st).blocks_checked = st.blocks.length - 1) ∧
    validateChain (mineMany 10 "miner")
      = { valid := true, blocks_checked := 10, message := "chain valid" } ∧
    chainHeight (mineMany 10 "miner") = 10 := by
  refine ⟨mkChain_replay, ?_, fun st => rfl, by decide, by decide⟩
  intro st h
  simp [validateChain, h]

/-- Witness for C1: a replay-consistent concrete state validates. -/
theorem validateChain_rederivation_witness :
    (validateChain genesisState).valid = true :=
  (validateChain_rederivation.2.1 genesisState rfl).1

/-! ## C8: deterministic nonce search, sequential or parallel -/

/-- Scanning a concatenated search order is scanning the pieces in turn. -/
theorem findNonceSeq_append (dg : Nat → Nat) (t : Nat) (a b : List Nat) :
    findNonceSeq dg t (a ++ b)
      = (findNonceSeq dg t a).orElse fun _ => findNonceSeq dg t b := by
  induction a with
  | nil => simp [findNonceSeq, Option.orElse]
  | cons n rest ih =>
    by_cases h : meetsTarget (dg n) t <;>
      simp [findNonceSeq, h, ih, Option.orElse]

/-- The chunked search equals the sequential scan of the flattened order. -/
theorem findNonceChunks_eq (dg : Nat → Nat) (t : Nat) (chunks : List (List Nat)) :
    findNonceChunks dg t chunks = findNonceSeq dg t chunks.flatten := by
  induction chunks with
  | nil => rfl
  | cons c cs ih =>
    show (findNonceSeq dg t c).orElse (fun _ => findNonceChunks dg t cs)
        = findNonceSeq dg t ((c :: cs).flatten)
    rw [List.flatten_cons, findNonceSeq_append]
    cases findNonceSeq dg t c <;> simp [Option.orElse, ih]

/-- Claim C8: the nonce search is deterministic — for a fixed (tip,
transaction set, search order) the concurrent chunked search produces
exactly the block of the sequential scan, and any found nonce satisfies the
target and lies in the search order. -/
theorem miner_parallel_deterministic :
    (∀ (digestOf : Nat → Nat) (target : Nat) (tip : Block)
        (txs : List Transaction) (chunks : List (List Nat)),
        mineBlockPar digestOf target tip txs chunks
          = mineBlockSeq digestOf target tip txs chunks.flatten) ∧
    (∀ (digestOf : Nat → Nat) (target n : Nat) (order : List Nat),
        findNonceSeq digestOf target order = some n →
        meetsTarget (digestOf n) target = true ∧ n ∈ order) := by
  constructor
  · intro dg t tip txs chunks
    simp [mineBlockPar, mineBlockSeq, findNonceChunks_eq]
  · intro dg t n order h
    induction order with
    | nil => simp [findNonceSeq] at h
    | cons m rest ih =>
      by_cases hm : meetsTarget (dg m) t
      · simp [findNonceSeq, hm] at h
        subst h
        exact ⟨hm, List.mem_cons_self m rest⟩
      · simp [findNonceSeq, hm] at h
        have := ih h
        exact ⟨this.1, List.mem_cons_of_mem m this.2⟩

/-- Witness for C8: a concrete search order with the first valid nonce at 5. -/
theorem miner_parallel_deterministic_witness :
    meetsTarget ((fun n => 100 - n) 5) 95 = true ∧ 5 ∈ [3, 4, 5, 6, 7] :=
  miner_parallel_deterministic.2 (fun n => 100 - n) 95 5 [3, 4, 5, 6, 7] (by decide)

/-! ## Descendant-closure lemmas -/

/-- The worklist only ever grows the accumulator. -/
theorem descClosureAux_mono (fuel : Nat) :
    ∀ (remaining : List MempoolEntry) (acc : List String),
      acc ⊆ descClosureAux fuel remaining acc := by
  induction fuel with
  | zero => intro remaining acc; exact fun _ h => h
  | succ n ih =>
    intro remaining acc
    simp only [descClosureAux]
    by_cases h : (remaining.filter fun e => dependsOnIds acc e.tx).isEmpty
    · simp [h]
    · simp only [h, if_false]
      exact fun x hx =>
        ih (remaining.filter fun e => !dependsOnIds acc e.tx) _
          (List.mem_append_left _ hx)

/-- When the worklist has enough fuel to run to quiescence, its result is
closed: any remaining entry depending on the result is itself in it. -/
theorem descClosureAux_closed (fuel : Nat) :
    ∀ (remaining : List MempoolEntry) (acc : List String),
      remaining.length < fuel →
      ∀ e ∈ remaining,
        dependsOnIds (descClosureAux fuel remaining acc) e.tx = true →
        e.tx.id ∈ descClosureAux fuel remaining acc := by
  induction fuel with
  | zero => intro remaining acc h; omega
  | succ n ih =>
    intro remaining acc hlen e he hdep
    simp only [descClosureAux] at hdep ⊢
    by_cases hemp : (remaining.filter fun e => dependsOnIds acc e.tx).isEmpty
    · simp only [hemp, if_true] at hdep ⊢
      rw [List.isEmpty_iff, List.filter_eq_nil_iff] at hemp
      exact absurd hdep (by simpa using hemp e he)
    · simp only [hemp, if_false] at hdep ⊢
      have hsplit := length_filter_split remaining fun e => dependsOnIds acc e.tx
      have hpos : 0 < (remaining.filter fun e => dependsOnIds acc e.tx).length := by
        rcases Nat.eq_zero_or_pos (remaining.filter fun e =>
          dependsOnIds acc e.tx).length with h0 | h0
        · exact absurd (by simp [List.isEmpty_iff, List.length_eq_zero.mp h0]) hemp
        · exact h0
      by_cases hacc : dependsOnIds acc e.tx
      · have hmem : e.tx.id ∈ acc ++ (remaining.filter fun e =>
            dependsOnIds acc e.tx).map fun e => e.tx.id :=
          List.mem_append_right _
            (List.mem_map_of_mem _ (List.mem_filter.mpr ⟨he, hacc⟩))
        exact descClosureAux_mono n _ _ hmem
      · have hrest : e ∈ remaining.filter fun e => !dependsOnIds acc e.tx :=
          List.mem_filter.mpr ⟨he, by simp [hacc]⟩
        exact ih _ _ (by omega) e hrest hdep

/-- The root id belongs to its own descendant closure. -/
theorem descendantClosure_root (pool : Mempool) (rootId : String) :
    rootId ∈ descendantClosure pool rootId :=
  descClosureAux_mono (pool.length + 1) pool [rootId] (List.mem_singleton.mpr rfl)

/-- The descendant closure is closed under direct in-pool dependency. -/
theorem descendantClosure_closed (pool : Mempool) (rootId : String) :
    ∀ e ∈ pool, dependsOnIds (descendantClosure pool rootId) e.tx = true →
      e.tx.id ∈ descendantClosure pool rootId :=
  descClosureAux_closed (pool.length + 1) pool [rootId] (by omega)

/-- Every transitive in-pool descendant's id is captured by the computed
closure. -/
theorem descendantClosure_complete (pool : Mempool) (root : Transaction) :
    ∀ t : Transaction, DescendantOf pool root t →
      t.id ∈ descendantClosure pool root.id := by
  intro t h
  induction h with
  | base hmem hdep =>
    rename_i e
    obtain ⟨i, himem, hieq⟩ : ∃ i ∈ e.tx.inputs, i.prevout.txId = root.id := by
      simpa [dependsOn, List.any_eq_true] using hdep
    refine descendantClosure_closed pool root.id e hmem ?_
    simp only [dependsOnIds, List.any_eq_true]
    exact ⟨i, himem, by simpa [hieq] using descendantClosure_root pool root.id⟩
  | step hdesc hmem hdep ih =>
    rename_i t' e
    obtain ⟨i, himem, hieq⟩ : ∃ i ∈ e.tx.inputs, i.prevout.txId = t'.id := by
      simpa [dependsOn, List.any_eq_true] using hdep
    refine descendantClosure_closed pool root.id e hmem ?_
    simp only [dependsOnIds, List.any_eq_true]
    exact ⟨i, himem, by simpa [hieq] using ih⟩

/-- A descendant is the transaction of some pool entry. -/
theorem DescendantOf_mem (pool : Mempool) (root : Transaction) :
    ∀ t : Transaction, DescendantOf pool root t → ∃ e ∈ pool, e.tx = t := by
  intro t h
  cases h with
  | base hmem _ => exact ⟨_, hmem, rfl⟩
  | step _ hmem _ => exact ⟨_, hmem, rfl⟩

/-! ## C5: double-spend rejection and atomic RBF replacement -/

/-- Claim C5: when the pool holds an entry spending an outpoint the newcomer
also spends, admission rejects the newcomer with DoubleSpend unless its
fee-rate bumps the old one by at least the configured minimum percentage;
an accepted replacement evicts the superseded entry and every one of its
in-pool descendants in one batch — the resulting pool is produced by a
single removal of exactly that set plus the insertion of the newcomer.
(The newcomer's id is assumed fresh, as transaction ids are unique.) -/
theorem mempool_rbf_double_spend :
    ∀ (pool : Mempool) (eOld eNew : MempoolEntry),
      findConflict pool eNew.tx = some eOld →
      (∀ x ∈ pool, x.tx.id ≠ eNew.tx.id) →
      (isSufficientBump eOld.feeRate eNew.feeRate = false →
          admitTx pool eNew = .rejected .DoubleSpend) ∧
      (isSufficientBump eOld.feeRate eNew.feeRate = true →
        ∃ p' : Mempool,
          admitTx pool eNew = .accepted p' ∧
          p' = (pool.filter fun x =>
              !(descendantClosure pool eOld.tx.id).contains x.tx.id) ++ [eNew] ∧
          (∀ x ∈ p', x.tx.id ≠ eOld.tx.id) ∧
          (∀ t : Transaction, DescendantOf pool eOld.tx t →
              ∀ x ∈ p', x.tx.id ≠ t.id) ∧
          eNew ∈ p' ∧
          (∀ x ∈ p', x ∈ pool ∨ x = eNew) ∧
          (∀ x ∈ pool, x ∈ p' ∨ x.tx.id ∈ descendantClosure pool eOld.tx.id)) := by
  intro pool eOld eNew hconf hfresh
  have holdmem : eOld ∈ pool := List.mem_of_find?_eq_some hconf
  constructor
  · intro hbump
    simp [admitTx, hconf, hbump]
  · intro hbump
    refine ⟨_, by simp only [admitTx, hconf, hbump, if_true], rfl, ?_, ?_, ?_, ?_, ?_⟩
    · intro x hx
      rcases List.mem_append.mp hx with hx | hx
      · have hcond := List.of_mem_filter hx
        have : x.tx.id ∉ descendantClosure pool eOld.tx.id := by
          simpa using hcond
        intro heq
        exact this (heq ▸ descendantClosure_root pool eOld.tx.id)
      · have : x = eNew := List.mem_singleton.mp hx
        subst this
        exact fun heq => hfresh eOld holdmem heq.symm
    · intro t ht x hx
      have htid : t.id ∈ descendantClosure pool eOld.tx.id :=
        descendantClosure_complete pool eOld.tx t ht
      rcases List.mem_append.mp hx with hx | hx
      · have hcond := List.of_mem_filter hx
        have : x.tx.id ∉ descendantClosure pool eOld.tx.id := by
          simpa using hcond
        exact fun heq => this (heq ▸ htid)
      · have : x = eNew := List.mem_singleton.mp hx
        subst this
        obtain ⟨f, hf, hft⟩ := DescendantOf_mem pool eOld.tx t ht
        exact fun heq => hfresh f hf (by rw [hft, ← heq])
    · exact List.mem_append_right _ (List.mem_singleton.mpr rfl)
    · intro x hx
      rcases List.mem_append.mp hx with hx | hx
      · exact Or.inl (List.mem_of_mem_filter hx)
      · exact Or.inr (List.mem_singleton.mp hx)
    · intro x hx
      by_cases hin : x.tx.id ∈ descendantClosure pool eOld.tx.id
      · exact Or.inr hin
      · exact Or.inl (List.mem_append_left _
          (List.mem_filter.mpr ⟨hx, by simpa using hin⟩))

/-- Witness for C5: an insufficient 5 percent bump against the demo pool is
rejected as a double spend. -/
theorem mempool_rbf_double_spend_witness :
    admitTx demoPoolRbf ⟨demoTxB, 105⟩ = .rejected .DoubleSpend :=
  (mempool_rbf_double_spend demoPoolRbf ⟨demoTxA, 100⟩ ⟨demoTxB, 105⟩
    (by decide) (by decide)).1 (by decide)

/-! ## Selection lemmas -/

/-- The fold underlying pickBest yields an element at least as high-rated as
its accumulator and everything it scanned, drawn from one of the two. -/
theorem pickBest_fold_spec (l : List MempoolEntry) :
    ∀ (acc : Option MempoolEntry) (r : MempoolEntry),
      l.foldl (fun best e =>
          match best with
          | none => some e
          | some b => if b.feeRate < e.feeRate then some e else some b) acc
        = some r →
      (∀ x ∈ l, x.feeRate ≤ r.feeRate) ∧
      (acc = some r ∨ r ∈ l) ∧
      (∀ b, acc = some b → b.feeRate ≤ r.feeRate) := by
  induction l with
  | nil =>
    intro acc r h
    simp only [List.foldl_nil] at h
    exact ⟨by simp, Or.inl h, fun b hb => by rw [hb] at h; cases h; exact le_rfl⟩
  | cons x l ih =>
    intro acc r h
    rw [List.foldl_cons] at h
    obtain ⟨h1, h2, h3⟩ := ih _ r h
    refine ⟨?_, ?_, ?_⟩
    · intro y hy
      rcases List.mem_cons.mp hy with hy | hy
      · subst hy
        cases acc with
        | none => exact h3 y rfl
        | some b =>
          by_cases hc : b.feeRate < y.feeRate
          · exact h3 y (by simp [hc])
          · exact le_trans (Nat.not_lt.mp hc) (h3 b (by simp [hc]))
      · exact h1 y hy
    · rcases h2 with h2 | h2
      · cases acc with
        | none =>
          cases h2
          exact Or.inr (List.mem_cons_self _ _)
        | some b =>
          by_cases hc : b.feeRate < x.feeRate
          · simp only [hc, if_true] at h2
            cases h2
            exact Or.inr (List.mem_cons_self _ _)
          · simp only [hc, if_false] at h2
            exact Or.inl h2
      · exact Or.inr (List.mem_cons_of_mem _ h2)
    · intro b hb
      subst hb
      by_cases hc : b.feeRate < x.feeRate
      · exact le_trans (le_of_lt hc) (h3 x (by simp [hc]))
      · exact h3 b (by simp [hc])

/-- What pickBest returns: a ready in-pool entry of maximal fee-rate among
the ready ones. -/
theorem pickBest_spec (rem : List MempoolEntry) (e : MempoolEntry)
    (h : pickBest rem = some e) :
    e ∈ rem ∧ isReady rem e = true ∧
      ∀ x ∈ rem.filter (isReady rem), x.feeRate ≤ e.feeRate := by
  obtain ⟨h1, h2, _⟩ := pickBest_fold_spec (rem.filter (isReady rem)) none e h
  rcases h2 with h2 | h2
  · cases h2
  · have hm := List.mem_filter.mp h2
    exact ⟨hm.1, hm.2, h1⟩

/-- Every selected entry comes from the remaining set. -/
theorem selectLoop_subset (fuel : Nat) :
    ∀ (rem : List MempoolEntry) (x : MempoolEntry),
      x ∈ selectLoop fuel rem → x ∈ rem := by
  induction fuel with
  | zero => intro rem x h; cases h
  | succ n ih =>
    intro rem x h
    simp only [selectLoop] at h
    cases hp : pickBest rem with
    | none => rw [hp] at h; cases h
    | some e =>
      rw [hp] at h
      rcases List.mem_cons.mp h with h | h
      · exact h ▸ (pickBest_spec rem e hp).1
      · exact List.mem_of_mem_filter (ih _ x h)

/-- Greedy selection never emits an entry before one of its parents. -/
theorem selectLoop_noParentLater (fuel : Nat) :
    ∀ rem : List MempoolEntry, noParentLater (selectLoop fuel rem) = true := by
  induction fuel with
  | zero => intro rem; rfl
  | succ n ih =>
    intro rem
    simp only [selectLoop]
    cases hp : pickBest rem with
    | none => rfl
    | some e =>
      obtain ⟨hmem, hready, _⟩ := pickBest_spec rem e hp
      simp only [noParentLater, Bool.and_eq_true]
      refine ⟨?_, ih _⟩
      rw [List.all_eq_true]
      intro p hpmem
      have hfil := List.mem_filter.mp (selectLoop_subset n _ p hpmem)
      have hne : (p.tx.id == e.tx.id) = false := by
        simpa using hfil.2
      simp only [isReady, List.all_eq_true] at hready
      have := hready p hfil.1
      simp only [hne, Bool.false_or] at this
      exact this

/-- Sublists of a dependency-free pool are dependency-free. -/
theorem noInPoolDeps_filter (rem : List MempoolEntry) (q : MempoolEntry → Bool)
    (h : noInPoolDeps rem = true) : noInPoolDeps (rem.filter q) = true := by
  simp only [noInPoolDeps, List.all_eq_true] at h ⊢
  intro e he p hp
  exact h e (List.mem_of_mem_filter he) p (List.mem_of_mem_filter hp)

/-- In a dependency-free pool every entry is ready. -/
theorem isReady_of_noDeps (rem : List MempoolEntry) (h : noInPoolDeps rem = true) :
    ∀ a ∈ rem, isReady rem a = true := by
  simp only [noInPoolDeps, List.all_eq_true] at h
  intro a ha
  simp only [isReady, List.all_eq_true]
  intro p hp
  have := h a ha p hp
  simp [this]

/-- On a dependency-free pool the greedy selection is non-increasing in
fee-rate. -/
theorem selectLoop_sorted (fuel : Nat) :
    ∀ rem : List MempoolEntry, noInPoolDeps rem = true →
      feeRatesNonIncr (selectLoop fuel rem) = true := by
  induction fuel with
  | zero => intro rem _; rfl
  | succ n ih =>
    intro rem hnd
    simp only [selectLoop]
    cases hp : pickBest rem with
    | none => rfl
    | some e =>
      obtain ⟨hmem, hready, hmax⟩ := pickBest_spec rem e hp
      rw [List.filter_eq_self.mpr (isReady_of_noDeps rem hnd)] at hmax
      have hnd' := noInPoolDeps_filter rem (fun x => x.tx.id != e.tx.id) hnd
      have htail := ih _ hnd'
      show feeRatesNonIncr
        (e :: selectLoop n (rem.filter fun x => x.tx.id != e.tx.id)) = true
      cases hsel : selectLoop n (rem.filter fun x => x.tx.id != e.tx.id) with
      | nil => rfl
      | cons b t =>
        have hb : b ∈ rem :=
          List.mem_of_mem_filter (selectLoop_subset n _ b
            (by rw [hsel]; exact List.mem_cons_self b t))
        rw [hsel] at htail
        simp only [feeRatesNonIncr, Bool.and_eq_true, decide_eq_true_eq]
        exact ⟨hmax b hb, htail⟩

/-! ## C6: selection ordering — corrected -/

/-- Counterexample to C6 as stated: in the demo pool a parent at fee-rate 1
has a child at fee-rate 2; every entry is locktime-valid, the selection
respects dependency order, and its fee-rate sequence [1, 2] is increasing.
Moreover no ordering of this pool at all can be simultaneously non-increasing
in fee-rate and free of a child preceding its parent. -/
theorem mempool_selection_counterexample :
    feeRatesNonIncr (selectForMining demoPoolParentChild 5) = false ∧
    noParentLater (selectForMining demoPoolParentChild 5) = true ∧
    (∀ e ∈ demoPoolParentChild, locktimeOk e.tx 5 = true) ∧
    ((selectForMining demoPoolParentChild 5).map fun e => e.feeRate) = [1, 2] ∧
    (∀ l : List MempoolEntry, l.Perm demoPoolParentChild →
        feeRatesNonIncr l = true → noParentLater l = false) := by
  refine ⟨by decide, by decide, by decide, by decide, ?_⟩
  intro l hp
  have h2 : l ∈ List.permutations' demoPoolParentChild :=
    List.mem_permutations'.mpr hp
  have h3 : List.permutations' demoPoolParentChild
      = [[⟨demoTxA, 1⟩, ⟨demoTxC, 2⟩], [⟨demoTxC, 2⟩, ⟨demoTxA, 1⟩]] := by decide
  rw [h3] at h2
  rcases List.mem_cons.mp h2 with h | h2
  · subst h; decide
  rcases List.mem_cons.mp h2 with h | h2
  · subst h; decide
  cases h2

/-- Claim C6 (amended): selection for mining returns entries of the pool with
satisfied locktimes, in an order in which no transaction precedes an in-pool
parent it depends on, chosen greedily by descending fee-rate; the fee-rate
sequence is non-increasing whenever no in-pool dependency forces a
lower-rate parent earlier — in particular for every dependency-free pool. -/
theorem mempool_selection_ordering :
    ∀ (pool : Mempool) (nextHeight : Nat),
      noParentLater (selectForMining pool nextHeight) = true ∧
      (∀ e ∈ selectForMining pool nextHeight, locktimeOk e.tx nextHeight = true) ∧
      (∀ e ∈ selectForMining pool nextHeight, e ∈ pool) ∧
      (noInPoolDeps pool = true →
          feeRatesNonIncr (selectForMining pool nextHeight) = true) := by
  intro pool nextHeight
  simp only [selectForMining]
  refine ⟨selectLoop_noParentLater _ _, ?_, ?_, ?_⟩
  · intro e he
    exact (List.mem_filter.mp (selectLoop_subset _ _ e he)).2
  · intro e he
    exact List.mem_of_mem_filter (selectLoop_subset _ _ e he)
  · intro hnd
    exact selectLoop_sorted _ _ (noInPoolDeps_filter pool _ hnd)

/-- Witness for C6 (amended): on the independent demo pool the selection is
non-increasing in fee-rate. -/
theorem mempool_selection_ordering_witness :
    feeRatesNonIncr (selectForMining demoPoolIndependent 5) = true :=
  (mempool_selection_ordering demoPoolIndependent 5).2.2.2 (by decide)

end MiniBlockchain
